import Mathlib

/-!
Shallow embedding of the chanhub package (hub.go).

The hub owns a registry (a Go map used as a set) of subscriber channels.
Subscribe allocates a channel of capacity 1, inserts it in the registry
under the exclusive lock, and spawns a watcher goroutine that waits for
the cancellation context to fire, then deletes the channel from the
registry under the exclusive lock and finally closes the channel after
releasing the lock.  Broadcast takes the shared lock and performs a
nonblocking send (a select with a default branch) on every registered
channel, skipping channels whose single slot is still occupied.

Channels are identified by the natural number allocated at Subscribe
time; the state of every channel ever allocated is tracked by a total
map so that the caller can keep reading from an endpoint after the hub
has dropped it.  The watcher of each subscription is modelled by a
small phase automaton, and the concurrent system by an interleaving
small-step relation together with its reachable states.
-/

namespace Chanhub

/-- Capacity of every subscriber mailbox: hub.go allocates each channel
with buffer size 1. -/
def chanCap : Nat := 1

/-- State of one Go channel carrying unit signals: how many signals sit
in the buffer, and whether the channel has been closed. -/
structure Chan where
  buf : Nat
  closed : Bool
deriving DecidableEq, Repr

/-- Freshly allocated channel: empty buffer, open. -/
def Chan.new : Chan := ⟨0, false⟩

/-- Nonblocking send: the select with a default branch in Broadcast.
Sending on a closed channel is a runtime fault, modelled as none.  On an
open channel the send succeeds when the buffer has room; otherwise the
default branch is taken and the channel is left untouched. -/
def trySend (c : Chan) : Option Chan :=
  if c.closed then none
  else if c.buf < chanCap then some ⟨c.buf + 1, c.closed⟩
  else some c

/-- Channel receive without blocking: some (true, c) means a buffered
signal was delivered, some (false, c) means the channel is closed and
drained (the Go receive yields the zero value with ok = false), and
none means the receive would block. -/
def recv (c : Chan) : Option (Bool × Chan) :=
  if 0 < c.buf then some (true, ⟨c.buf - 1, c.closed⟩)
  else if c.closed then some (false, c)
  else none

/-- Closing a channel keeps whatever is buffered in it. -/
def closeChan (c : Chan) : Chan := ⟨c.buf, true⟩

/-- Progress of the watcher goroutine of one subscription: the context
has not fired yet; the context has fired but the watcher has not run;
the watcher has deleted the channel from the registry under the lock but
not closed it yet; the watcher has also closed the channel. -/
inductive Phase where
  | watching
  | fired
  | removed
  | done
deriving DecidableEq, Repr

/-- Pointwise update of a map indexed by channel identifiers. -/
def updMap {β : Type} (f : Nat → β) (i : Nat) (v : β) : Nat → β :=
  fun j => if j = i then v else f j

/-- Global state of one hub together with every channel it ever handed
out: the next fresh identifier, the registry (the key set of the Go
map), the state of each channel and the phase of each watcher. -/
structure HubState where
  nextId : Nat
  subs : List Nat
  chans : Nat → Chan
  phase : Nat → Phase

/-- New(): a hub with an empty registry. -/
def HubState.new : HubState :=
  ⟨0, [], fun _ => Chan.new, fun _ => Phase.watching⟩

/-- Subscribe(ctx): allocate a fresh capacity-1 channel, insert it into
the registry under the exclusive lock, record the watcher bound to the
supplied cancellation scope (the flag tells whether that scope has
already fired at call time), and return the identifier of the receive
endpoint handed to the caller. -/
def subscribe (s : HubState) (scopeFired : Bool) : HubState × Nat :=
  (⟨s.nextId + 1,
    s.nextId :: s.subs,
    updMap s.chans s.nextId Chan.new,
    updMap s.phase s.nextId (if scopeFired then Phase.fired else Phase.watching)⟩,
   s.nextId)

/-- Cancellation scope of subscription i fires (ctx.Done becomes ready). -/
def fireScope (s : HubState) (i : Nat) : HubState :=
  { s with phase := updMap s.phase i Phase.fired }

/-- First half of the watcher teardown: delete the channel from the
registry under the exclusive lock. -/
def teardownRemove (s : HubState) (i : Nat) : HubState :=
  { s with subs := s.subs.erase i,
           phase := updMap s.phase i Phase.removed }

/-- Second half of the watcher teardown: close the channel, after the
exclusive lock has been released. -/
def teardownClose (s : HubState) (i : Nat) : HubState :=
  { s with chans := updMap s.chans i (closeChan (s.chans i)),
           phase := updMap s.phase i Phase.done }

/-- Replace the state of channel i. -/
def setChan (s : HubState) (i : Nat) (c : Chan) : HubState :=
  { s with chans := updMap s.chans i c }

/-- One iteration of the Broadcast loop body for subscriber i: the
select with the nonblocking send and the default skip branch. -/
def deliverOne (s : HubState) (i : Nat) : Option HubState :=
  (trySend (s.chans i)).map (setChan s i)

/-- The Broadcast loop over a snapshot of the registry. -/
def broadcastList : List Nat → HubState → Option HubState
  | [], s => some s
  | i :: rest, s => (deliverOne s i).bind (broadcastList rest)

/-- Broadcast(): under the shared lock, try to send one signal to every
registered channel, skipping full mailboxes. -/
def broadcast (s : HubState) : Option HubState :=
  broadcastList s.subs s

/-- Receive performed by the caller on the endpoint of subscription i. -/
def recvStep (s : HubState) (i : Nat) : Option (Bool × HubState) :=
  (recv (s.chans i)).map (fun p => (p.1, setChan s i p.2))

/-- Events of the interleaving semantics. -/
inductive Action where
  | subscribeA (scopeFired : Bool)
  | fireA (i : Nat)
  | removeA (i : Nat)
  | closeA (i : Nat)
  | broadcastA
  | recvA (i : Nat)
deriving DecidableEq, Repr

/-- Interleaving small-step semantics of the hub: API calls by clients,
the two halves of each watcher teardown, scope firings, and receives by
subscribers, in any order. -/
inductive Step : HubState → Action → HubState → Prop where
  | sub (s : HubState) (f : Bool) :
      Step s (Action.subscribeA f) (subscribe s f).1
  | fire (s : HubState) (i : Nat) (hlt : i < s.nextId)
      (hw : s.phase i = Phase.watching) :
      Step s (Action.fireA i) (fireScope s i)
  | rem (s : HubState) (i : Nat) (hf : s.phase i = Phase.fired) :
      Step s (Action.removeA i) (teardownRemove s i)
  | cls (s : HubState) (i : Nat) (hr : s.phase i = Phase.removed) :
      Step s (Action.closeA i) (teardownClose s i)
  | bcast (s s' : HubState) (h : broadcast s = some s') :
      Step s Action.broadcastA s'
  | rcv (s : HubState) (i : Nat) (b : Bool) (s' : HubState)
      (h : recvStep s i = some (b, s')) :
      Step s (Action.recvA i) s'

/-- States reachable from a freshly created hub. -/
inductive Reachable : HubState → Prop where
  | init : Reachable HubState.new
  | step {s : HubState} {a : Action} {s' : HubState} :
      Reachable s → Step s a s' → Reachable s'

/-- N consecutive Broadcast calls with nothing in between. -/
def iterBroadcast : Nat → HubState → Option HubState
  | 0, s => some s
  | n + 1, s => (broadcast s).bind (iterBroadcast n)

/-- k consecutive Subscribe calls, each with a live (unfired) scope. -/
def subscribeN : Nat → HubState → HubState
  | 0, s => s
  | k + 1, s => subscribeN k (subscribe s false).1

/-- One round of the draining-consumer scenario: a Broadcast followed by
one successful receive of a signal by subscriber i.  The round yields
none when the receive would block or would report end-of-stream instead
of delivering a signal. -/
def drainRound (i : Nat) (s : HubState) : Option HubState :=
  (broadcast s).bind (fun t =>
    match recvStep t i with
    | some (true, u) => some u
    | _ => none)

/-- N rounds of broadcast-then-receive by subscriber i. -/
def iterDrain (i : Nat) : Nat → HubState → Option HubState
  | 0, s => some s
  | n + 1, s => (drainRound i s).bind (iterDrain i n)

/-- Concrete state: a fresh hub with one subscription (identifier 0)
whose scope is live. -/
def stSub : HubState := (subscribe HubState.new false).1

/-- Concrete state: after one Broadcast the single mailbox holds one
signal, so it is full. -/
def stFull : HubState := setChan stSub 0 ⟨1, false⟩

/-- Concrete state: the scope of subscription 0 fired while the mailbox
was still empty; the watcher has not run yet. -/
def stFired : HubState := fireScope stSub 0

/-- Concrete state: the scope of subscription 0 fired while a signal was
still pending in the mailbox. -/
def stFullFired : HubState := fireScope stFull 0

/-- Concrete state: the watcher has deleted subscription 0 from the
registry, with a signal still pending. -/
def stFullRemoved : HubState := teardownRemove stFullFired 0

/-- Concrete state: teardown of subscription 0 finished with one signal
still buffered in the now-closed channel. -/
def stFullClosed : HubState := teardownClose stFullRemoved 0

example : trySend Chan.new = some ⟨1, false⟩ := by decide

example : trySend ⟨1, false⟩ = some ⟨1, false⟩ := by decide

example : recv ⟨1, true⟩ = some (true, ⟨0, true⟩) := by decide

example : recv ⟨0, true⟩ = some (false, ⟨0, true⟩) := by decide

example : broadcast HubState.new = some HubState.new := rfl

example : (subscribe HubState.new false).1.subs = [0] := rfl

example :
    broadcast (subscribe HubState.new false).1 =
      some (setChan (subscribe HubState.new false).1 0 ⟨1, false⟩) := rfl

theorem updMap_self {β : Type} (f : Nat → β) (i : Nat) (v : β) :
    updMap f i v i = v := by
  simp [updMap]

theorem updMap_ne {β : Type} (f : Nat → β) {i j : Nat} (v : β) (h : j ≠ i) :
    updMap f i v j = f j := by
  simp [updMap, h]

theorem updMap_eq_self {β : Type} (f : Nat → β) (i : Nat) :
    updMap f i (f i) = f := by
  funext j
  by_cases h : j = i
  · subst h; simp [updMap]
  · simp [updMap, h]

/-! Basic facts about the channel primitives. -/

theorem trySend_eq_none {c : Chan} : trySend c = none ↔ c.closed = true := by
  constructor
  · intro h
    unfold trySend at h
    split at h
    · assumption
    · split at h <;> simp at h
  · intro h
    simp [trySend, h]

theorem trySend_closed {c c' : Chan} (h : trySend c = some c') :
    c'.closed = c.closed := by
  unfold trySend at h
  split at h
  · simp at h
  · split at h
    · simp at h
      subst h
      rfl
    · simp at h
      subst h
      rfl

theorem trySend_open {c : Chan} (h : c.closed = false) :
    ∃ c', trySend c = some c' := by
  by_cases hb : c.buf < chanCap
  · exact ⟨⟨c.buf + 1, c.closed⟩, by simp [trySend, h, hb]⟩
  · exact ⟨c, by simp [trySend, h, hb]⟩

theorem trySend_buf_le {c c' : Chan} (h : trySend c = some c')
    (hb : c.buf ≤ chanCap) : c'.buf ≤ chanCap := by
  unfold trySend at h
  split at h
  · simp at h
  · split at h
    · simp at h
      subst h
      simp
      omega
    · simp at h
      subst h
      exact hb

theorem trySend_full {c : Chan} (hc : c.closed = false)
    (hb : chanCap ≤ c.buf) : trySend c = some c := by
  unfold trySend
  rw [hc]
  simp
  omega

theorem trySend_le_one {c : Chan} (hc : c.closed = false)
    (hb : c.buf ≤ 1) : trySend c = some ⟨1, false⟩ := by
  obtain ⟨b, cl⟩ := c
  simp at hc
  subst hc
  unfold trySend
  simp [chanCap]
  interval_cases b <;> simp

theorem recv_frame {c : Chan} {b : Bool} {c' : Chan}
    (h : recv c = some (b, c')) :
    c'.closed = c.closed ∧ c'.buf ≤ c.buf := by
  unfold recv at h
  split at h
  · simp at h
    obtain ⟨-, h⟩ := h
    subst h
    constructor <;> simp
  · split at h <;> simp_all

/-! Frame lemmas for the Broadcast loop. -/

theorem deliverOne_eq {s : HubState} {i : Nat} {t : HubState}
    (h : deliverOne s i = some t) :
    ∃ c, trySend (s.chans i) = some c ∧ t = setChan s i c := by
  unfold deliverOne at h
  rw [Option.map_eq_some'] at h
  obtain ⟨c, hc, ht⟩ := h
  exact ⟨c, hc, ht.symm⟩

theorem setChan_fields (s : HubState) (i : Nat) (c : Chan) :
    (setChan s i c).nextId = s.nextId ∧ (setChan s i c).subs = s.subs ∧
      (setChan s i c).phase = s.phase := by
  simp [setChan]

theorem setChan_chans_self (s : HubState) (i : Nat) (c : Chan) :
    (setChan s i c).chans i = c := by
  simp [setChan, updMap]

theorem setChan_chans_ne (s : HubState) {i j : Nat} (c : Chan) (h : j ≠ i) :
    (setChan s i c).chans j = s.chans j := by
  simp [setChan, updMap_ne _ _ h]

theorem broadcastList_fields {l : List Nat} {s s' : HubState}
    (h : broadcastList l s = some s') :
    s'.nextId = s.nextId ∧ s'.subs = s.subs ∧ s'.phase = s.phase := by
  induction l generalizing s with
  | nil =>
    simp [broadcastList] at h
    subst h
    exact ⟨rfl, rfl, rfl⟩
  | cons i rest ih =>
    simp only [broadcastList, Option.bind_eq_some] at h
    obtain ⟨t, hd, hrest⟩ := h
    obtain ⟨c, -, ht⟩ := deliverOne_eq hd
    subst ht
    obtain ⟨h1, h2, h3⟩ := ih hrest
    simp [setChan] at h1 h2 h3
    exact ⟨h1, h2, h3⟩

theorem broadcastList_closed {l : List Nat} {s s' : HubState}
    (h : broadcastList l s = some s') (i : Nat) :
    (s'.chans i).closed = (s.chans i).closed := by
  induction l generalizing s with
  | nil =>
    simp [broadcastList] at h
    subst h
    rfl
  | cons j rest ih =>
    simp only [broadcastList, Option.bind_eq_some] at h
    obtain ⟨t, hd, hrest⟩ := h
    obtain ⟨c, hc, ht⟩ := deliverOne_eq hd
    subst ht
    rw [ih hrest]
    by_cases hij : i = j
    · subst hij
      rw [setChan_chans_self, trySend_closed hc]
    · rw [setChan_chans_ne _ _ hij]

theorem broadcastList_not_mem {l : List Nat} {s s' : HubState}
    (h : broadcastList l s = some s') (i : Nat) (hi : i ∉ l) :
    s'.chans i = s.chans i := by
  induction l generalizing s with
  | nil =>
    simp [broadcastList] at h
    subst h
    rfl
  | cons j rest ih =>
    simp only [broadcastList, Option.bind_eq_some] at h
    obtain ⟨t, hd, hrest⟩ := h
    obtain ⟨c, -, ht⟩ := deliverOne_eq hd
    subst ht
    simp at hi
    rw [ih hrest hi.2, setChan_chans_ne _ _ hi.1]

theorem broadcastList_buf_le {l : List Nat} {s s' : HubState}
    (h : broadcastList l s = some s') (hb : ∀ i, (s.chans i).buf ≤ chanCap)
    (i : Nat) : (s'.chans i).buf ≤ chanCap := by
  induction l generalizing s with
  | nil =>
    simp [broadcastList] at h
    subst h
    exact hb i
  | cons j rest ih =>
    simp only [broadcastList, Option.bind_eq_some] at h
    obtain ⟨t, hd, hrest⟩ := h
    obtain ⟨c, hc, ht⟩ := deliverOne_eq hd
    subst ht
    refine ih hrest ?_
    intro k
    by_cases hkj : k = j
    · subst hkj
      rw [setChan_chans_self]
      exact trySend_buf_le hc (hb k)
    · rw [setChan_chans_ne _ _ hkj]
      exact hb k

theorem broadcastList_total {l : List Nat} {s : HubState}
    (h : ∀ i ∈ l, (s.chans i).closed = false) :
    ∃ s', broadcastList l s = some s' := by
  induction l generalizing s with
  | nil => exact ⟨s, rfl⟩
  | cons j rest ih =>
    obtain ⟨c, hc⟩ := trySend_open (h j (by simp))
    have hd : deliverOne s j = some (setChan s j c) := by
      simp [deliverOne, hc]
    have hrest : ∀ i ∈ rest, ((setChan s j c).chans i).closed = false := by
      intro i hi
      by_cases hij : i = j
      · subst hij
        rw [setChan_chans_self, trySend_closed hc]
        exact h i (by simp)
      · rw [setChan_chans_ne _ _ hij]
        exact h i (by simp [hi])
    obtain ⟨s', hs'⟩ := ih hrest
    exact ⟨s', by simp [broadcastList, hd, hs']⟩

theorem broadcastList_keeps {l : List Nat} {s s' : HubState}
    (h : broadcastList l s = some s') (i : Nat)
    (hc : s.chans i = ⟨1, false⟩) : s'.chans i = ⟨1, false⟩ := by
  induction l generalizing s with
  | nil =>
    simp [broadcastList] at h
    subst h
    exact hc
  | cons j rest ih =>
    simp only [broadcastList, Option.bind_eq_some] at h
    obtain ⟨t, hd, hrest⟩ := h
    obtain ⟨c, hcs, ht⟩ := deliverOne_eq hd
    subst ht
    refine ih hrest ?_
    by_cases hij : i = j
    · subst hij
      rw [hc, trySend_le_one rfl (by simp)] at hcs
      simp at hcs
      rw [setChan_chans_self, hcs]
    · rw [setChan_chans_ne _ _ hij]
      exact hc

theorem broadcastList_delivers {l : List Nat} {s s' : HubState}
    (h : broadcastList l s = some s') (i : Nat) (hi : i ∈ l)
    (hc : (s.chans i).closed = false) (hb : (s.chans i).buf ≤ 1) :
    s'.chans i = ⟨1, false⟩ := by
  induction l generalizing s with
  | nil => cases hi
  | cons j rest ih =>
    simp only [broadcastList, Option.bind_eq_some] at h
    obtain ⟨t, hd, hrest⟩ := h
    obtain ⟨c, hcs, ht⟩ := deliverOne_eq hd
    subst ht
    by_cases hij : i = j
    · subst hij
      rw [trySend_le_one hc hb] at hcs
      simp at hcs
      refine broadcastList_keeps hrest i ?_
      rw [setChan_chans_self, hcs]
    · have hi' : i ∈ rest := by
        cases hi with
        | head => exact absurd rfl hij
        | tail _ hmem => exact hmem
      refine ih hrest hi' ?_ ?_
      · rw [setChan_chans_ne _ _ hij]
        exact hc
      · rw [setChan_chans_ne _ _ hij]
        exact hb

theorem broadcastList_full {l : List Nat} {s : HubState}
    (h : ∀ i ∈ l, (s.chans i).closed = false ∧ chanCap ≤ (s.chans i).buf) :
    broadcastList l s = some s := by
  induction l with
  | nil => rfl
  | cons j rest ih =>
    obtain ⟨hc, hb⟩ := h j (by simp)
    have hd : deliverOne s j = some s := by
      have hself : setChan s j (s.chans j) = s := by
        show ({ s with chans := updMap s.chans j (s.chans j) } : HubState) = s
        rw [updMap_eq_self]
      simp [deliverOne, trySend_full hc hb, hself]
    simp only [broadcastList, hd, Option.some_bind]
    exact ih (fun i hi => h i (by simp [hi]))

/-! The state invariant maintained by every reachable hub state. -/

/-- Invariant of reachable hub states: identifiers in the registry are
distinct and were allocated; for allocated identifiers, registry
membership tracks the watcher phase exactly (removal happens in the
same critical section as the phase moving to removed); identifiers not
yet allocated carry their initial bookkeeping; a channel is closed
exactly when its watcher has finished; buffers never exceed the
capacity. -/
structure Inv (s : HubState) : Prop where
  nodup : s.subs.Nodup
  lt_next : ∀ i ∈ s.subs, i < s.nextId
  mem_iff : ∀ i, i < s.nextId →
    (i ∈ s.subs ↔ s.phase i = Phase.watching ∨ s.phase i = Phase.fired)
  fresh_phase : ∀ i, s.nextId ≤ i → s.phase i = Phase.watching
  fresh_chan : ∀ i, s.nextId ≤ i → s.chans i = Chan.new
  closed_iff : ∀ i, (s.chans i).closed = true ↔ s.phase i = Phase.done
  buf_le : ∀ i, (s.chans i).buf ≤ chanCap

theorem Inv.open_of_mem {s : HubState} (hI : Inv s) {i : Nat}
    (hi : i ∈ s.subs) : (s.chans i).closed = false := by
  have hph := (hI.mem_iff i (hI.lt_next i hi)).mp hi
  rcases Bool.eq_false_or_eq_true (s.chans i).closed with hc | hc
  · have := (hI.closed_iff i).mp hc
    rcases hph with hph | hph <;> rw [this] at hph <;> cases hph
  · exact hc

theorem inv_init : Inv HubState.new := by
  constructor
  · exact List.nodup_nil
  · intro i hi
    cases hi
  · intro i hi
    cases hi
  · intro i _
    rfl
  · intro i _
    rfl
  · intro i
    constructor
    · intro h
      cases h
    · intro h
      cases h
  · intro i
    simp [HubState.new, Chan.new, chanCap]

theorem inv_subscribe {s : HubState} (hI : Inv s) (f : Bool) :
    Inv (subscribe s f).1 := by
  have hfresh : s.nextId ∉ s.subs := fun hmem =>
    Nat.lt_irrefl _ (hI.lt_next _ hmem)
  constructor
  · exact List.nodup_cons.mpr ⟨hfresh, hI.nodup⟩
  · intro i hi
    rcases List.mem_cons.mp hi with h | h
    · subst h
      exact Nat.lt_succ_self _
    · exact Nat.lt_succ_of_lt (hI.lt_next i h)
  · intro i hi
    by_cases hin : i = s.nextId
    · subst hin
      simp only [subscribe, updMap_self]
      cases f <;> simp
    · have hilt : i < s.nextId := by
        simp only [subscribe] at hi
        omega
      simp only [subscribe, List.mem_cons, updMap_ne _ _ hin]
      rw [← hI.mem_iff i hilt]
      constructor
      · intro h
        rcases h with h | h
        · exact absurd h hin
        · exact h
      · intro h
        exact Or.inr h
  · intro i hi
    simp only [subscribe] at hi ⊢
    have hin : i ≠ s.nextId := by omega
    rw [updMap_ne _ _ hin]
    exact hI.fresh_phase i (by omega)
  · intro i hi
    simp only [subscribe] at hi ⊢
    have hin : i ≠ s.nextId := by omega
    rw [updMap_ne _ _ hin]
    exact hI.fresh_chan i (by omega)
  · intro i
    by_cases hin : i = s.nextId
    · subst hin
      simp only [subscribe, updMap_self]
      cases f <;> simp [Chan.new]
    · simp only [subscribe, updMap_ne _ _ hin]
      exact hI.closed_iff i
  · intro i
    by_cases hin : i = s.nextId
    · subst hin
      simp only [subscribe, updMap_self]
      simp [Chan.new, chanCap]
    · simp only [subscribe, updMap_ne _ _ hin]
      exact hI.buf_le i

theorem inv_fire {s : HubState} (hI : Inv s) {i : Nat}
    (hlt : i < s.nextId) (hw : s.phase i = Phase.watching) :
    Inv (fireScope s i) := by
  have hmem : i ∈ s.subs := (hI.mem_iff i hlt).mpr (Or.inl hw)
  constructor
  · exact hI.nodup
  · exact hI.lt_next
  · intro j hj
    by_cases hji : j = i
    · subst hji
      simp only [fireScope, updMap_self]
      simp [hmem]
    · simp only [fireScope, updMap_ne _ _ hji]
      exact hI.mem_iff j hj
  · intro j hj
    simp only [fireScope] at hj
    have hji : j ≠ i := by omega
    simp only [fireScope, updMap_ne _ _ hji]
    exact hI.fresh_phase j hj
  · exact hI.fresh_chan
  · intro j
    by_cases hji : j = i
    · subst hji
      simp only [fireScope, updMap_self]
      have hcl : (s.chans j).closed = false := hI.open_of_mem hmem
      simp [hcl]
    · simp only [fireScope, updMap_ne _ _ hji]
      exact hI.closed_iff j
  · exact hI.buf_le

theorem inv_remove {s : HubState} (hI : Inv s) {i : Nat}
    (hf : s.phase i = Phase.fired) : Inv (teardownRemove s i) := by
  have hlt : i < s.nextId := by
    by_contra h
    have := hI.fresh_phase i (by omega)
    rw [this] at hf
    cases hf
  have hmem : i ∈ s.subs := (hI.mem_iff i hlt).mpr (Or.inr hf)
  constructor
  · exact hI.nodup.erase i
  · intro j hj
    exact hI.lt_next j (List.mem_of_mem_erase hj)
  · intro j hj
    by_cases hji : j = i
    · subst hji
      simp only [teardownRemove, updMap_self]
      constructor
      · intro h
        exact absurd rfl ((hI.nodup.mem_erase_iff.mp h).1)
      · intro h
        rcases h with h | h <;> cases h
    · simp only [teardownRemove, updMap_ne _ _ hji]
      rw [List.mem_erase_of_ne hji]
      exact hI.mem_iff j hj
  · intro j hj
    simp only [teardownRemove] at hj
    have hji : j ≠ i := by omega
    simp only [teardownRemove, updMap_ne _ _ hji]
    exact hI.fresh_phase j hj
  · exact hI.fresh_chan
  · intro j
    by_cases hji : j = i
    · subst hji
      simp only [teardownRemove, updMap_self]
      have hcl : (s.chans j).closed = false := hI.open_of_mem hmem
      simp [hcl]
    · simp only [teardownRemove, updMap_ne _ _ hji]
      exact hI.closed_iff j
  · exact hI.buf_le

theorem inv_close {s : HubState} (hI : Inv s) {i : Nat}
    (hr : s.phase i = Phase.removed) : Inv (teardownClose s i) := by
  have hlt : i < s.nextId := by
    by_contra h
    have := hI.fresh_phase i (by omega)
    rw [this] at hr
    cases hr
  have hmem : i ∉ s.subs := by
    intro h
    rcases (hI.mem_iff i hlt).mp h with hph | hph <;>
      rw [hr] at hph <;> cases hph
  constructor
  · exact hI.nodup
  · exact hI.lt_next
  · intro j hj
    by_cases hji : j = i
    · subst hji
      simp only [teardownClose, updMap_self]
      simp [hmem]
    · simp only [teardownClose, updMap_ne _ _ hji]
      exact hI.mem_iff j hj
  · intro j hj
    simp only [teardownClose] at hj
    have hji : j ≠ i := by omega
    simp only [teardownClose, updMap_ne _ _ hji]
    exact hI.fresh_phase j hj
  · intro j hj
    simp only [teardownClose] at hj
    have hji : j ≠ i := by omega
    simp only [teardownClose, updMap_ne _ _ hji]
    exact hI.fresh_chan j hj
  · intro j
    by_cases hji : j = i
    · subst hji
      simp only [teardownClose, updMap_self]
      simp [closeChan]
    · simp only [teardownClose, updMap_ne _ _ hji]
      exact hI.closed_iff j
  · intro j
    by_cases hji : j = i
    · subst hji
      simp only [teardownClose, updMap_self]
      simp [closeChan]
      exact hI.buf_le j
    · simp only [teardownClose, updMap_ne _ _ hji]
      exact hI.buf_le j

theorem inv_broadcast {s s' : HubState} (hI : Inv s)
    (h : broadcast s = some s') : Inv s' := by
  obtain ⟨hn, hs, hp⟩ := broadcastList_fields h
  constructor
  · rw [hs]
    exact hI.nodup
  · intro j hj
    rw [hs] at hj
    rw [hn]
    exact hI.lt_next j hj
  · intro j hj
    rw [hn] at hj
    rw [hs, hp]
    exact hI.mem_iff j hj
  · intro j hj
    rw [hn] at hj
    rw [hp]
    exact hI.fresh_phase j hj
  · intro j hj
    rw [hn] at hj
    have hnm : j ∉ s.subs := fun hm => by
      have := hI.lt_next j hm
      omega
    rw [broadcastList_not_mem h j hnm]
    exact hI.fresh_chan j hj
  · intro j
    rw [broadcastList_closed h j, hp]
    exact hI.closed_iff j
  · exact broadcastList_buf_le h hI.buf_le

theorem inv_recv {s : HubState} (hI : Inv s) {i : Nat} {b : Bool}
    {s' : HubState} (h : recvStep s i = some (b, s')) : Inv s' := by
  unfold recvStep at h
  rw [Option.map_eq_some'] at h
  obtain ⟨⟨b0, c⟩, hr, heq⟩ := h
  simp at heq
  obtain ⟨-, heq⟩ := heq
  subst heq
  obtain ⟨hcl, hbuf⟩ := recv_frame hr
  constructor
  · exact hI.nodup
  · exact hI.lt_next
  · intro j hj
    simp only [setChan]
    exact hI.mem_iff j hj
  · intro j hj
    simp only [setChan]
    exact hI.fresh_phase j hj
  · intro j hj
    by_cases hji : j = i
    · subst hji
      exfalso
      have hc0 : s.chans j = Chan.new := hI.fresh_chan j hj
      rw [hc0] at hr
      simp [recv, Chan.new] at hr
    · rw [setChan_chans_ne _ _ hji]
      exact hI.fresh_chan j hj
  · intro j
    by_cases hji : j = i
    · subst hji
      rw [setChan_chans_self, hcl]
      simp only [setChan]
      exact hI.closed_iff j
    · rw [setChan_chans_ne _ _ hji]
      simp only [setChan]
      exact hI.closed_iff j
  · intro j
    by_cases hji : j = i
    · subst hji
      rw [setChan_chans_self]
      exact Nat.le_trans hbuf (hI.buf_le j)
    · rw [setChan_chans_ne _ _ hji]
      exact hI.buf_le j

theorem inv_step {s : HubState} {a : Action} {s' : HubState}
    (hI : Inv s) (h : Step s a s') : Inv s' := by
  cases h with
  | sub f => exact inv_subscribe hI f
  | fire i hlt hw => exact inv_fire hI hlt hw
  | rem i hf => exact inv_remove hI hf
  | cls i hr => exact inv_close hI hr
  | bcast t hb => exact inv_broadcast hI hb
  | rcv i b t hr => exact inv_recv hI hr

theorem reachable_inv {s : HubState} (h : Reachable s) : Inv s := by
  induction h with
  | init => exact inv_init
  | step _ hstep ih => exact inv_step ih hstep

/-! Corollaries about Broadcast on invariant-satisfying states. -/

theorem broadcast_fields {s s' : HubState} (h : broadcast s = some s') :
    s'.nextId = s.nextId ∧ s'.subs = s.subs ∧ s'.phase = s.phase :=
  broadcastList_fields h

theorem broadcast_total_of_inv {s : HubState} (hI : Inv s) :
    ∃ s', broadcast s = some s' :=
  broadcastList_total (fun _ hi => hI.open_of_mem hi)

theorem broadcast_delivers {s s' : HubState} (hI : Inv s)
    (h : broadcast s = some s') {i : Nat} (hi : i ∈ s.subs) :
    s'.chans i = ⟨1, false⟩ :=
  broadcastList_delivers h i hi (hI.open_of_mem hi) (hI.buf_le i)

/-! Reachability of the concrete states. -/

theorem reachable_stSub : Reachable stSub :=
  Reachable.step Reachable.init (Step.sub HubState.new false)

theorem broadcast_stSub : broadcast stSub = some stFull := rfl

theorem reachable_stFull : Reachable stFull :=
  Reachable.step reachable_stSub (Step.bcast stSub stFull broadcast_stSub)

theorem reachable_stFired : Reachable stFired :=
  Reachable.step reachable_stSub
    (Step.fire stSub 0 (by decide) (by decide))

theorem reachable_stFullFired : Reachable stFullFired :=
  Reachable.step reachable_stFull
    (Step.fire stFull 0 (by decide) (by decide))

theorem reachable_stFullRemoved : Reachable stFullRemoved :=
  Reachable.step reachable_stFullFired
    (Step.rem stFullFired 0 (by decide))

theorem reachable_stFullClosed : Reachable stFullClosed :=
  Reachable.step reachable_stFullRemoved
    (Step.cls stFullRemoved 0 (by decide))

theorem iterBroadcast_keeps {n : Nat} {s : HubState} {i : Nat}
    (hR : Reachable s) (hc : s.chans i = ⟨1, false⟩) :
    ∃ s', iterBroadcast n s = some s' ∧ s'.chans i = ⟨1, false⟩ ∧
      Reachable s' := by
  induction n generalizing s with
  | zero => exact ⟨s, rfl, hc, hR⟩
  | succ n ih =>
    obtain ⟨t, ht⟩ := broadcast_total_of_inv (reachable_inv hR)
    have hR' : Reachable t := Reachable.step hR (Step.bcast s t ht)
    have hc' : t.chans i = ⟨1, false⟩ := broadcastList_keeps ht i hc
    obtain ⟨s', hs', hcs', hRs'⟩ := ih hR' hc'
    exact ⟨s', by simp [iterBroadcast, ht, hs'], hcs', hRs'⟩

/-- C1: Broadcast coalesces on a full mailbox.  For a registered
subscription, any positive number N of consecutive Broadcast calls with
no intervening consumption leaves the mailbox of that subscription
holding exactly one pending signal (buffer length 1), not N: once the
single slot is occupied, each further Broadcast takes the default
branch and skips the subscriber without altering its mailbox and
without an error. -/
theorem broadcast_coalesces {s : HubState} {i N : Nat}
    (hR : Reachable s) (hi : i ∈ s.subs) (hN : 1 ≤ N) :
    ∃ s', iterBroadcast N s = some s' ∧ s'.chans i = ⟨1, false⟩ := by
  obtain ⟨m, rfl⟩ : ∃ m, N = m + 1 := ⟨N - 1, by omega⟩
  have hI := reachable_inv hR
  obtain ⟨t, ht⟩ := broadcast_total_of_inv hI
  have hR' : Reachable t := Reachable.step hR (Step.bcast s t ht)
  have hc : t.chans i = ⟨1, false⟩ := broadcast_delivers hI ht hi
  obtain ⟨s', hs', hcs', -⟩ := @iterBroadcast_keeps m t i hR' hc
  exact ⟨s', by simp [iterBroadcast, ht, hs'], hcs'⟩

/-- Witness for C1 at a concrete input: three consecutive broadcasts on
a hub with one registered subscription leave one pending signal. -/
theorem broadcast_coalesces_witness :
    (0 ∈ stSub.subs) ∧ 1 ≤ 3 ∧
      ∃ s', iterBroadcast 3 stSub = some s' ∧ s'.chans 0 = ⟨1, false⟩ :=
  ⟨by decide, by decide, broadcast_coalesces reachable_stSub (by decide) (by decide)⟩

theorem subscribeN_length (k : Nat) (s : HubState) :
    (subscribeN k s).subs.length = s.subs.length + k := by
  induction k generalizing s with
  | zero => rfl
  | succ k ih =>
    show (subscribeN k (subscribe s false).1).subs.length = s.subs.length + (k + 1)
    rw [ih]
    simp [subscribe]
    omega

/-- C5: Registration count.  Starting from a freshly created hub, after
k Subscribe calls whose cancellation scopes have not fired and with no
teardown in between, the registry size is exactly k. -/
theorem registration_count (k : Nat) :
    (subscribeN k HubState.new).subs.length = k := by
  rw [subscribeN_length]
  simp [HubState.new]

/-- C6: Non-blocking broadcast.  On every reachable hub state Broadcast
returns a state (the try-send on each subscriber never waits and never
faults), and when every registered mailbox is already full Broadcast
returns with the state completely unchanged. -/
theorem broadcast_nonblocking {s : HubState} (hR : Reachable s) :
    ∃ s', broadcast s = some s' ∧
      ((∀ i ∈ s.subs, chanCap ≤ (s.chans i).buf) → s' = s) := by
  have hI := reachable_inv hR
  obtain ⟨s', hs'⟩ := broadcast_total_of_inv hI
  refine ⟨s', hs', fun hfull => ?_⟩
  have hfix : broadcast s = some s :=
    broadcastList_full (fun i hi => ⟨hI.open_of_mem hi, hfull i hi⟩)
  have := hs'.symm.trans hfix
  exact Option.some_inj.mp this

/-- Witness for C6 at a concrete input: the hub whose single registered
mailbox is full. -/
theorem broadcast_nonblocking_witness :
    ∃ s', broadcast stFull = some s' ∧
      ((∀ i ∈ stFull.subs, chanCap ≤ (stFull.chans i).buf) → s' = stFull) :=
  broadcast_nonblocking reachable_stFull

/-- C7: Open-channel registry invariant.  In every reachable state every
registered mailbox is still open, so the try-send performed by
Broadcast never lands on a closed channel: the send-on-closed-channel
fault branch of the nonblocking send is unreachable. -/
theorem registered_chan_open {s : HubState} {i : Nat}
    (hR : Reachable s) (hi : i ∈ s.subs) :
    (s.chans i).closed = false ∧ trySend (s.chans i) ≠ none := by
  have hI := reachable_inv hR
  have hc := hI.open_of_mem hi
  refine ⟨hc, fun hnone => ?_⟩
  rw [trySend_eq_none, hc] at hnone
  cases hnone

/-- Witness for C7 at a concrete input. -/
theorem registered_chan_open_witness :
    (stFull.chans 0).closed = false ∧ trySend (stFull.chans 0) ≠ none :=
  registered_chan_open reachable_stFull (by decide)

theorem drain_round_spec {s : HubState} {i : Nat}
    (hR : Reachable s) (hi : i ∈ s.subs) :
    ∃ u, drainRound i s = some u ∧ Reachable u ∧ u.subs = s.subs ∧
      u.chans i = ⟨0, false⟩ := by
  have hI := reachable_inv hR
  obtain ⟨t, ht⟩ := broadcast_total_of_inv hI
  have hct : t.chans i = ⟨1, false⟩ := broadcast_delivers hI ht hi
  have hrecv : recvStep t i = some (true, setChan t i ⟨0, false⟩) := by
    simp [recvStep, hct, recv]
  refine ⟨setChan t i ⟨0, false⟩, ?_, ?_, ?_, ?_⟩
  · simp [drainRound, ht, hrecv]
  · exact Reachable.step (Reachable.step hR (Step.bcast s t ht))
      (Step.rcv t i true (setChan t i ⟨0, false⟩) hrecv)
  · show t.subs = s.subs
    exact (broadcast_fields ht).2.1
  · exact setChan_chans_self t i ⟨0, false⟩

/-- C4: Exactly-one in-order delivery to a draining subscriber.  For a
registered subscription whose mailbox slot is empty, each
broadcast-then-receive round succeeds: the Broadcast deposits exactly
one signal, the subscriber receives exactly that signal (not an
end-of-stream indication), and the slot is empty again, so N rounds
yield exactly N received signals, one per Broadcast in issuance order
(signals carry no payload, so the order of observation is the order of
the successful receives, one after each Broadcast).  At the end no
further signal is pending: another receive would block. -/
theorem draining_delivery {s : HubState} {i : Nat}
    (hR : Reachable s) (hi : i ∈ s.subs) (h0 : s.chans i = ⟨0, false⟩)
    (N : Nat) :
    ∃ s', iterDrain i N s = some s' ∧ s'.subs = s.subs ∧
      s'.chans i = ⟨0, false⟩ ∧ recvStep s' i = none := by
  induction N generalizing s with
  | zero =>
    refine ⟨s, rfl, rfl, h0, ?_⟩
    simp [recvStep, h0, recv]
  | succ N ih =>
    obtain ⟨u, hu, hRu, hsubs, hcu⟩ := drain_round_spec hR hi
    have hiu : i ∈ u.subs := by rw [hsubs]; exact hi
    obtain ⟨s', hs', hsubs', hcs', hrecv'⟩ := ih hRu hiu hcu
    refine ⟨s', ?_, ?_, hcs', hrecv'⟩
    · simp [iterDrain, hu, hs']
    · rw [hsubs', hsubs]

/-- Witness for C4 at a concrete input: two rounds on the hub with one
fresh subscription. -/
theorem draining_delivery_witness :
    (0 ∈ stSub.subs) ∧ stSub.chans 0 = ⟨0, false⟩ ∧
      ∃ s', iterDrain 0 2 stSub = some s' ∧ s'.subs = stSub.subs ∧
        s'.chans 0 = ⟨0, false⟩ ∧ recvStep s' 0 = none :=
  ⟨by decide, by decide,
    draining_delivery reachable_stSub (by decide) (by decide) 2⟩

/-- C8: Broadcast never mutates the registry.  Any broadcast step keeps
the set of registered subscriptions unchanged; with an empty registry
Broadcast is a complete no-op returning the state as it was; and the
removal half of the watcher teardown is the only kind of step that ever
takes a subscription out of the registry (Subscribe only inserts). -/
theorem broadcast_frame :
    (∀ s s' : HubState, Step s Action.broadcastA s' → s'.subs = s.subs) ∧
    (∀ s : HubState, s.subs = [] → broadcast s = some s) ∧
    (∀ (s : HubState) (a : Action) (s' : HubState) (i : Nat),
      Step s a s' → i ∈ s.subs → i ∉ s'.subs → a = Action.removeA i) := by
  refine ⟨?_, ?_, ?_⟩
  · intro s s' h
    cases h with
    | bcast t hb => exact (broadcastList_fields hb).2.1
  · intro s h
    unfold broadcast
    rw [h]
    rfl
  · intro s a s' i h hi hi'
    cases h with
    | sub f =>
      exact absurd (List.mem_cons_of_mem _ hi) hi'
    | fire j hlt hw =>
      exact absurd hi hi'
    | rem j hf =>
      by_cases hij : i = j
      · subst hij
        rfl
      · exfalso
        apply hi'
        show i ∈ s.subs.erase j
        exact (List.mem_erase_of_ne hij).mpr hi
    | cls j hr =>
      exact absurd hi hi'
    | bcast t hb =>
      rw [(broadcastList_fields hb).2.1] at hi'
      exact absurd hi hi'
    | rcv j b t hr =>
      exfalso
      unfold recvStep at hr
      rw [Option.map_eq_some'] at hr
      obtain ⟨p, -, hp⟩ := hr
      injection hp with h1 h2
      rw [← h2] at hi'
      exact hi' hi

/-- Witness for C8 at concrete inputs: the empty-registry no-op and the
identification of a removal step. -/
theorem broadcast_frame_witness :
    broadcast HubState.new = some HubState.new ∧
      Action.removeA 0 = Action.removeA 0 :=
  ⟨broadcast_frame.2.1 HubState.new rfl,
    broadcast_frame.2.2 stFullFired (Action.removeA 0) stFullRemoved 0
      (Step.rem stFullFired 0 (by decide)) (by decide) (by decide)⟩

/-- C10: Isolation between subscriptions.  One iteration of the
Broadcast loop body for subscriber i (whether it delivers a signal or
skips a full mailbox) leaves the mailbox of every other subscription j
untouched, both its pending-signal content and its open or closed
status, and leaves the registry and watcher phases untouched. -/
theorem deliver_isolated {s : HubState} {i j : Nat} {t : HubState}
    (hne : i ≠ j) (h : deliverOne s i = some t) :
    t.chans j = s.chans j ∧ t.subs = s.subs ∧ t.phase = s.phase := by
  obtain ⟨c, -, ht⟩ := deliverOne_eq h
  subst ht
  refine ⟨setChan_chans_ne _ _ (Ne.symm hne), ?_, ?_⟩ <;> simp [setChan]

/-- Witness for C10 at a concrete input: delivery to subscriber 0 does
not touch the channel with identifier 1. -/
theorem deliver_isolated_witness :
    stFull.chans 1 = stSub.chans 1 ∧ stFull.subs = stSub.subs ∧
      stFull.phase = stSub.phase :=
  @deliver_isolated stSub 0 1 stFull (by decide) rfl

/-- C9: Subscribe with an already-fired cancellation scope raises no
error.  The call still returns a receive endpoint, freshly allocated,
open and registered; the watcher is immediately runnable (phase fired),
and running both halves of its teardown removes the subscription from
the registry and closes the endpoint, after which a read reports
end-of-stream rather than a failure. -/
theorem subscribe_fired_ok {s : HubState} (hR : Reachable s) :
    (subscribe s true).2 ∈ (subscribe s true).1.subs ∧
    (subscribe s true).1.chans (subscribe s true).2 = Chan.new ∧
    (subscribe s true).1.phase (subscribe s true).2 = Phase.fired ∧
    ∃ u v : HubState,
      Step (subscribe s true).1 (Action.removeA (subscribe s true).2) u ∧
      Step u (Action.closeA (subscribe s true).2) v ∧
      (subscribe s true).2 ∉ v.subs ∧
      (v.chans (subscribe s true).2).closed = true ∧
      recv (v.chans (subscribe s true).2) =
        some (false, v.chans (subscribe s true).2) := by
  have hI := reachable_inv hR
  have hn_not : s.nextId ∉ s.subs := fun hm =>
    Nat.lt_irrefl _ (hI.lt_next _ hm)
  have hmem : (subscribe s true).2 ∈ (subscribe s true).1.subs := by
    show s.nextId ∈ s.nextId :: s.subs
    exact List.mem_cons_self _ _
  have hchan : (subscribe s true).1.chans (subscribe s true).2 = Chan.new := by
    show updMap s.chans s.nextId Chan.new s.nextId = Chan.new
    exact updMap_self _ _ _
  have hph : (subscribe s true).1.phase (subscribe s true).2 = Phase.fired := by
    show updMap s.phase s.nextId Phase.fired s.nextId = Phase.fired
    exact updMap_self _ _ _
  have hphu : (teardownRemove (subscribe s true).1 (subscribe s true).2).phase
      (subscribe s true).2 = Phase.removed := by
    show updMap (subscribe s true).1.phase s.nextId Phase.removed s.nextId =
      Phase.removed
    exact updMap_self _ _ _
  have hchanv : (teardownClose
      (teardownRemove (subscribe s true).1 (subscribe s true).2)
      (subscribe s true).2).chans (subscribe s true).2 = ⟨0, true⟩ := by
    show updMap (teardownRemove (subscribe s true).1 (subscribe s true).2).chans
      s.nextId (closeChan ((teardownRemove (subscribe s true).1
        (subscribe s true).2).chans s.nextId)) s.nextId = ⟨0, true⟩
    rw [updMap_self]
    show closeChan ((subscribe s true).1.chans s.nextId) = ⟨0, true⟩
    have hchan' : (subscribe s true).1.chans s.nextId = Chan.new := hchan
    rw [hchan']
    rfl
  refine ⟨hmem, hchan, hph,
    teardownRemove (subscribe s true).1 (subscribe s true).2,
    teardownClose (teardownRemove (subscribe s true).1 (subscribe s true).2)
      (subscribe s true).2,
    Step.rem _ _ hph, Step.cls _ _ hphu, ?_, ?_, ?_⟩
  · show s.nextId ∉ ((s.nextId :: s.subs).erase s.nextId)
    rw [List.erase_cons_head]
    exact hn_not
  · rw [hchanv]
  · rw [hchanv]
    rfl

/-- Witness for C9 at a concrete input: subscribing to a fresh hub with
an already-fired scope. -/
theorem subscribe_fired_ok_witness :
    (subscribe HubState.new true).2 ∈ (subscribe HubState.new true).1.subs ∧
    (subscribe HubState.new true).1.chans (subscribe HubState.new true).2 =
      Chan.new ∧
    (subscribe HubState.new true).1.phase (subscribe HubState.new true).2 =
      Phase.fired ∧
    ∃ u v : HubState,
      Step (subscribe HubState.new true).1
        (Action.removeA (subscribe HubState.new true).2) u ∧
      Step u (Action.closeA (subscribe HubState.new true).2) v ∧
      (subscribe HubState.new true).2 ∉ v.subs ∧
      (v.chans (subscribe HubState.new true).2).closed = true ∧
      recv (v.chans (subscribe HubState.new true).2) =
        some (false, v.chans (subscribe HubState.new true).2) :=
  subscribe_fired_ok Reachable.init

/-- C3 is refuted by the code: after the cancellation scope of
subscription 0 has fired but before its watcher has run, the
subscription is still present in the registry, a reachable state that
the claimed if-and-only-if invariant forbids. -/
theorem fired_still_registered_cex :
    Reachable stFired ∧ stFired.phase 0 = Phase.fired ∧ 0 ∈ stFired.subs :=
  ⟨reachable_stFired, by decide, by decide⟩

/-- C3 amended: in every reachable state, an allocated subscription is
present in the registry if and only if the removal half of its watcher
teardown has not yet executed (its watcher phase is neither removed nor
done).  Between the scope firing and the watcher running, the
subscription remains registered, so membership tracks teardown
progress, not scope firing. -/
theorem registry_membership_inv {s : HubState} (hR : Reachable s) :
    ∀ i, i < s.nextId →
      (i ∈ s.subs ↔ s.phase i ≠ Phase.removed ∧ s.phase i ≠ Phase.done) := by
  have hI := reachable_inv hR
  intro i hi
  rw [hI.mem_iff i hi]
  cases hp : s.phase i <;> simp [hp]

/-- Witness for the amended C3 at a concrete input. -/
theorem registry_membership_inv_witness :
    0 < stFired.nextId ∧
      (0 ∈ stFired.subs ↔
        stFired.phase 0 ≠ Phase.removed ∧ stFired.phase 0 ≠ Phase.done) :=
  ⟨by decide, registry_membership_inv reachable_stFired 0 (by decide)⟩

/-- C2 is refuted by the code on one point: teardown does remove the
subscription and close the endpoint, but closing a Go channel does not
discard a buffered value, so when a signal is pending at close time the
next read from the closed endpoint yields that delivered signal (ok is
true), not the no-more-values indication. -/
theorem closed_read_delivers_cex :
    Reachable stFullClosed ∧ stFullClosed.phase 0 = Phase.done ∧
      0 ∉ stFullClosed.subs ∧ (stFullClosed.chans 0).closed = true ∧
      recv (stFullClosed.chans 0) = some (true, ⟨0, true⟩) :=
  ⟨reachable_stFullClosed, by decide, by decide, by decide, by decide⟩

/-- C2 amended: once the watcher teardown of a subscription has
completed, the subscription is no longer in the registry and its
endpoint is closed; a read from the closed endpoint yields the
no-more-values indication immediately when the mailbox slot is empty,
and otherwise delivers the single pending signal first, after which
every further read yields the no-more-values indication. -/
theorem cleanup_closes {s : HubState} {i : Nat} (hR : Reachable s)
    (hd : s.phase i = Phase.done) :
    i ∉ s.subs ∧ (s.chans i).closed = true ∧
      (recv (s.chans i) = some (false, s.chans i) ∨
        ∃ c : Chan, recv (s.chans i) = some (true, c) ∧
          recv c = some (false, c)) := by
  have hI := reachable_inv hR
  have hlt : i < s.nextId := by
    by_contra h
    have := hI.fresh_phase i (by omega)
    rw [this] at hd
    cases hd
  have hmem : i ∉ s.subs := by
    intro hm
    rcases (hI.mem_iff i hlt).mp hm with hph | hph <;>
      rw [hd] at hph <;> cases hph
  have hcl : (s.chans i).closed = true := (hI.closed_iff i).mpr hd
  refine ⟨hmem, hcl, ?_⟩
  have hb : (s.chans i).buf ≤ 1 := hI.buf_le i
  rcases Nat.lt_or_ge (s.chans i).buf 1 with hsmall | hbig
  · left
    have h0 : (s.chans i).buf = 0 := by omega
    unfold recv
    rw [h0, hcl]
    simp
  · right
    have h1 : (s.chans i).buf = 1 := by omega
    refine ⟨⟨0, true⟩, ?_, by decide⟩
    unfold recv
    rw [h1, hcl]
    simp

/-- Witness for the amended C2 at a concrete input: the subscription
torn down with a pending signal. -/
theorem cleanup_closes_witness :
    0 ∉ stFullClosed.subs ∧ (stFullClosed.chans 0).closed = true ∧
      (recv (stFullClosed.chans 0) =
          some (false, stFullClosed.chans 0) ∨
        ∃ c : Chan, recv (stFullClosed.chans 0) = some (true, c) ∧
          recv c = some (false, c)) :=
  cleanup_closes reachable_stFullClosed (by decide)

end Chanhub
